import Mathlib

set_option maxHeartbeats 1000000
set_option maxRecDepth 8192

/-! Shallow embedding of the Huffman compressor of src/src/main.rs.

Bytes are modelled as Nat (u8 values, kept below 256 by explicit hypotheses),
bit buffers (the bitvec crate BitVec of u8 with Msb0 ordering) are List Bool,
and a Rust panic (expect / unwrap / out of range slice index) is modelled by
the panicked constructor of RustResult. -/

/-- Result of running Rust code that can panic: either a normal return value
or a panic carrying the panic message. -/
inductive RustResult (α : Type) where
  | ok : α → RustResult α
  | panicked : String → RustResult α
deriving DecidableEq

/-- Functorial map on the ok value of a RustResult. -/
def RustResult.map {α β : Type} (f : α → β) : RustResult α → RustResult β
  | .ok a => .ok (f a)
  | .panicked m => .panicked m

/-- Sequencing of panicking computations: a panic aborts the rest of the
function, a normal value flows on. -/
def RustResult.bind {α β : Type} : RustResult α → (α → RustResult β) → RustResult β
  | .ok a, f => f a
  | .panicked m, _ => .panicked m

/-- Msb0 view of the low w bits of a natural number, as the bitvec view_bits
call produces for a byte (most significant bit first). -/
def natToBits (w n : Nat) : List Bool :=
  (List.range w).map (fun i => n.testBit (w - 1 - i))

/-- Value of a bit sequence read most significant bit first. -/
def bitsVal (bs : List Bool) : Nat :=
  bs.foldl (fun a b => 2 * a + (if b then 1 else 0)) 0

/-- Bit expansion of a byte buffer, eight Msb0 bits per byte: the view_bits
view that decompress takes of the archive bytes. -/
def bytesToBits (l : List Nat) : List Bool := (l.map (natToBits 8)).flatten

/-- Byte buffer underlying a BitVec of u8 with Msb0 ordering, as as_raw_slice
returns it: bits are packed most significant first and the final partial byte,
if any, is padded with zero bits. -/
def bitsToBytes : List Bool → List Nat
  | [] => []
  | b0 :: b1 :: b2 :: b3 :: b4 :: b5 :: b6 :: b7 :: rest =>
      bitsVal [b0, b1, b2, b3, b4, b5, b6, b7] :: bitsToBytes rest
  | bits => [bitsVal (bits ++ List.replicate (8 - bits.length) false)]

/-- Big endian byte encoding of the low 8*w bits of a natural number, as
to_be_bytes of a u64 produces for w = 8. -/
def toBEBytes : Nat → Nat → List Nat
  | 0, _ => []
  | w + 1, n => n / 2 ^ (8 * w) % 256 :: toBEBytes w n

/-- Big endian value of a byte sequence, as from_be_bytes for 8 bytes. -/
def readBE (bytes : List Nat) : Nat := bytes.foldl (fun a b => a * 256 + b) 0

/-- One bit list is an initial segment of another (code p comes first in l). -/
def InitSeg (p l : List Bool) : Prop := ∃ t, p ++ t = l

/-- Node of the Huffman tree. In the source, HuffmanNode is a struct with
fields frequency, byte (an Option of u8) and two optional boxed children, but
values are only ever created through new_leaf (byte present, no children) and
new_internal (no byte, both children present), so the reachable values are
exactly the two shapes below; the struct fields are recovered by the accessor
functions that follow. -/
inductive HuffmanNode where
  | leaf (frequency : Nat) (byte : Nat)
  | internal (frequency : Nat) (l_child r_child : HuffmanNode)
deriving DecidableEq

/-- Field frequency of a node. -/
def HuffmanNode.frequency : HuffmanNode → Nat
  | .leaf f _ => f
  | .internal f _ _ => f

/-- Field byte of a node: present exactly on leaves. -/
def HuffmanNode.byte : HuffmanNode → Option Nat
  | .leaf _ b => some b
  | .internal _ _ _ => none

/-- Field l_child of a node: present exactly on internal nodes. -/
def HuffmanNode.l_child : HuffmanNode → Option HuffmanNode
  | .leaf _ _ => none
  | .internal _ l _ => some l

/-- Field r_child of a node: present exactly on internal nodes. -/
def HuffmanNode.r_child : HuffmanNode → Option HuffmanNode
  | .leaf _ _ => none
  | .internal _ _ r => some r

/-- HuffmanNode::new_leaf. -/
def HuffmanNode.new_leaf (frequency byte : Nat) : HuffmanNode :=
  .leaf frequency byte

/-- HuffmanNode::new_internal: the frequency is the sum of the frequencies of
the children, the first argument becomes the left child. -/
def HuffmanNode.new_internal (left right : HuffmanNode) : HuffmanNode :=
  .internal (left.frequency + right.frequency) left right

/-- Comparison of naturals, as cmp on usize / u8. -/
def cmpNat (a b : Nat) : Ordering :=
  if a < b then .lt else if b < a then .gt else .eq

/-- Comparison of optional bytes, as the derived Ord on Option of u8:
None is smaller than every Some. -/
def cmpByteOpt : Option Nat → Option Nat → Ordering
  | none, none => .eq
  | none, some _ => .lt
  | some _, none => .gt
  | some a, some b => cmpNat a b

/-- impl Ord for HuffmanNode: the frequency comparison is reversed (so the
max-heap behaves as a min-heap on frequency) while the byte comparison is not
reversed (self.byte.cmp of other.byte), so among equal frequencies the
greatest element is the one with the greatest byte. -/
def nodeCmp (x y : HuffmanNode) : Ordering :=
  match cmpNat y.frequency x.frequency with
  | .eq => cmpByteOpt x.byte y.byte
  | o => o

/-- Push into the heap. The std BinaryHeap is modelled through its contract as
a list kept sorted with the greatest element (per nodeCmp) first; pop takes
the head. Ties between elements that compare equal are resolved
deterministically by insertion position. -/
def heapPush (a : HuffmanNode) : List HuffmanNode → List HuffmanNode
  | [] => [a]
  | b :: l => if nodeCmp a b = .lt then b :: heapPush a l else a :: b :: l

/-- The heap invariant of the list model: every element is greater or equal
(per nodeCmp, never less) than all later elements. -/
def HeapSorted (h : List HuffmanNode) : Prop :=
  List.Pairwise (fun a b => nodeCmp a b ≠ .lt) h

instance : DecidablePred HeapSorted := fun h =>
  inferInstanceAs (Decidable (List.Pairwise _ h))

/-- The merge loop of HuffmanTree::build: while more than one node remains,
pop two nodes (first pop = left child, second pop = right child), merge them
with new_internal and push the merged node back. The fuel argument only
bounds the number of iterations; every iteration removes one element, so any
fuel at least the length of the heap behaves like the unbounded source loop. -/
def mergeLoopF : Nat → List HuffmanNode → List HuffmanNode
  | 0, h => h
  | fuel + 1, x :: y :: rest => mergeLoopF fuel (heapPush (HuffmanNode.new_internal x y) rest)
  | _ + 1, h => h

/-- The merge loop with enough fuel for its heap. -/
def mergeLoop (h : List HuffmanNode) : List HuffmanNode := mergeLoopF h.length h

/-- The leaves collected by HuffmanTree::build: one leaf per byte value with a
nonzero occurrence count, iterated in byte order 0..=255. The occurrence
count of byte b in the data is data.count b. -/
def initialLeaves (data : List Nat) : List HuffmanNode :=
  (List.range 256).filterMap (fun b =>
    if data.count b ≠ 0 then some (HuffmanNode.new_leaf (data.count b) b) else none)

/-- The heap built by collecting the initial leaves (the collect call of the
source; as a BinaryHeap it is the same collection of nodes in max-first
order). -/
def initialHeap (data : List Nat) : List HuffmanNode :=
  (initialLeaves data).foldl (fun h n => heapPush n h) []

/-- The heap of HuffmanTree::build just before its merge loop: the collected
leaves, then a dummy leaf is pushed if the heap is empty, and if the heap then
holds a single node it is popped and merged with a dummy leaf. Note that for
empty data both fixups fire, so the heap holds one internal node with two
dummy leaf children. -/
def buildHeap (data : List Nat) : List HuffmanNode :=
  let heap1 := if initialHeap data = [] then heapPush (HuffmanNode.new_leaf 0 0) (initialHeap data)
    else initialHeap data
  match heap1 with
  | [single] => heapPush (HuffmanNode.new_internal single (HuffmanNode.new_leaf 0 0)) []
  | h => h

/-- The tree wraps a single root node. -/
structure HuffmanTree where
  root : HuffmanNode
deriving DecidableEq

/-- HuffmanTree::build. The final pop().unwrap() is modelled with headD; the
merge loop provably leaves exactly one node, so the default is unreachable. -/
def HuffmanTree.build (data : List Nat) : HuffmanTree :=
  ⟨(mergeLoop (buildHeap data)).headD (HuffmanNode.new_leaf 0 0)⟩

/-- HuffmanTree::serialize_recursive: a leaf is bit 1 followed by the eight
Msb0 bits of its byte, an internal node is bit 0 followed by the serialized
left child then the serialized right child. -/
def HuffmanTree.serialize_recursive : HuffmanNode → List Bool
  | .leaf _ byte => true :: natToBits 8 byte
  | .internal _ l r =>
      false :: (HuffmanTree.serialize_recursive l ++ HuffmanTree.serialize_recursive r)

/-- HuffmanTree::serialize. -/
def HuffmanTree.serialize (t : HuffmanTree) : List Bool :=
  HuffmanTree.serialize_recursive t.root

/-- HuffmanTree::build_table_recursive: at a node with a byte, record the
current encoding for that byte; at an internal node, descend left with bit 0
appended and right with bit 1 appended (the push / pop discipline on the
scratch buffer is the appended-path argument). The 256 entry table is
modelled as a function from byte values to codes. -/
def HuffmanTree.build_table_recursive :
    HuffmanNode → (Nat → List Bool) → List Bool → (Nat → List Bool)
  | .leaf _ byte, table, cur => fun b => if b = byte then cur else table b
  | .internal _ l r, table, cur =>
      let t1 := HuffmanTree.build_table_recursive l table (cur ++ [false])
      HuffmanTree.build_table_recursive r t1 (cur ++ [true])

/-- HuffmanTree::get_encoding_table: every entry starts as the empty code. -/
def HuffmanTree.get_encoding_table (t : HuffmanTree) : Nat → List Bool :=
  HuffmanTree.build_table_recursive t.root (fun _ => []) []

/-- Reads the eight bits of a leaf byte, most significant first, from the bit
stream; k counts the bits still to read, so the bit read while k + 1 remain
contributes 2 ^ k, which is 1 shifted left by 7 - i in the source loop. A
missing bit is the unwrap panic of the source. -/
def readBitsMsb : Nat → Nat → List Bool → RustResult (Nat × List Bool)
  | 0, acc, bits => .ok (acc, bits)
  | _ + 1, _, [] => .panicked ("unwrap on None")
  | k + 1, acc, bit :: bits => readBitsMsb k (acc + if bit then 2 ^ k else 0) bits

/-- HuffmanTree::deserialize_recursive, with explicit fuel for termination:
the fuel bounds the recursion depth, and since every level consumes at least
one bit before recursing, any fuel larger than the length of the bit stream
behaves exactly like the unbounded source recursion. Reading past the end of
the bit stream is the expect panic of the source. -/
def HuffmanTree.deserialize_recursive : Nat → List Bool → RustResult (HuffmanNode × List Bool)
  | 0, _ => .panicked ("fuel exhausted")
  | _ + 1, [] => .panicked ("Something wrong with bitstream")
  | _ + 1, true :: bits =>
      (readBitsMsb 8 0 bits).map (fun p => (HuffmanNode.new_leaf 0 p.1, p.2))
  | fuel + 1, false :: bits =>
      (HuffmanTree.deserialize_recursive fuel bits).bind (fun p =>
        (HuffmanTree.deserialize_recursive fuel p.2).bind (fun q =>
          .ok (HuffmanNode.new_internal p.1 q.1, q.2)))

/-- HuffmanTree::deserialize_shape. -/
def HuffmanTree.deserialize_shape (bits : List Bool) : RustResult (HuffmanTree × List Bool) :=
  (HuffmanTree.deserialize_recursive (bits.length + 1) bits).map (fun p => (⟨p.1⟩, p.2))

/-- HuffmanArchive::compress: magic bytes "JP" (74, 80) as bits, the
serialized tree bit length and the data byte length as 8 big endian bytes
each, the serialized tree bits, then for each input byte in order the bits of
its code table entry. -/
def HuffmanArchive.compress (data : List Nat) (tree : HuffmanTree) : List Bool :=
  let tree_bits := tree.serialize
  let encoding_table := tree.get_encoding_table
  let tree_len := tree_bits.length
  let data_len := data.length
  let archive := bytesToBits [74, 80]
      ++ bytesToBits (toBEBytes 8 tree_len)
      ++ bytesToBits (toBEBytes 8 data_len)
      ++ tree_bits
  data.foldl (fun acc byte => acc ++ encoding_table byte) archive

/-- The decode loop of HuffmanArchive::decompress: while fewer than data_len
bytes have been produced, read one bit (running out is the expect panic),
step to the left child on 0 and the right child on 1 (a missing child is the
unwrap panic), and whenever the reached node carries a byte, emit it and
reset to the root. -/
def HuffmanArchive.decodeLoop (root : HuffmanNode) :
    HuffmanNode → List Bool → Nat → RustResult (List Nat)
  | _, _, 0 => .ok []
  | _, [], _ + 1 => .panicked ("Ran out of bits before reaching data_len")
  | cur, bit :: bits, k + 1 =>
      match if bit then cur.r_child else cur.l_child with
      | none => .panicked ("unwrap on None")
      | some next =>
          match next.byte with
          | some b => (HuffmanArchive.decodeLoop root root bits k).map (fun out => b :: out)
          | none => HuffmanArchive.decodeLoop root next bits (k + 1)

/-- HuffmanArchive::decompress. The source checks only that at least 2 bytes
are present before slicing the byte ranges 2..10 and 10..18, so those slices
panic on archives of 2 to 17 bytes; the panics are modelled by the explicit
length tests. The tree_len field read from bytes 2..10 is unused beyond its
slice panic, which the first length test models. The header is 144 bits, so
the bit stream for the tree and the payload starts at bit 144; data_len is
read big endian from bytes 10..18. -/
def HuffmanArchive.decompress (archive_bytes : List Nat) : RustResult (Option (List Nat)) :=
  if archive_bytes.length < 2 then .ok none
  else if archive_bytes.take 2 ≠ [74, 80] then .ok none
  else if archive_bytes.length < 10 then .panicked ("slice index out of range")
  else if archive_bytes.length < 18 then .panicked ("slice index out of range")
  else
    (HuffmanTree.deserialize_shape ((bytesToBits archive_bytes).drop 144)).bind (fun p =>
      (HuffmanArchive.decodeLoop p.1.root p.1.root p.2
        (readBE ((archive_bytes.drop 10).take 8))).map (fun out => some out))

/-- The archive bytes written by main for a given input: the compressed
BitVec is written out through as_raw_slice, which pads the final partial byte
with zero bits. -/
def compressedBytes (data : List Nat) : List Nat :=
  bitsToBytes (HuffmanArchive.compress data (HuffmanTree.build data))

/-- The byte values sitting at the leaves of a subtree, in traversal order. -/
def leafBytes : HuffmanNode → List Nat
  | .leaf _ b => [b]
  | .internal _ l r => leafBytes l ++ leafBytes r

/-- Number of leaves of a subtree. -/
def leafCount : HuffmanNode → Nat
  | .leaf _ _ => 1
  | .internal _ l r => leafCount l + leafCount r

/-- Height of a subtree (a leaf has height 0). -/
def height : HuffmanNode → Nat
  | .leaf _ _ => 0
  | .internal _ l r => max (height l) (height r) + 1

/-- The tree HuffmanTree::deserialize_shape rebuilds from a serialized tree:
identical shape and leaf bytes, with the frequencies deserialization assigns
(0 for leaves, sums for internal nodes). -/
def reFreq : HuffmanNode → HuffmanNode
  | .leaf _ b => HuffmanNode.new_leaf 0 b
  | .internal _ l r => HuffmanNode.new_internal (reFreq l) (reFreq r)

/-- Two nodes have the same shape and the same byte value at every leaf,
ignoring frequencies. -/
def SameShape : HuffmanNode → HuffmanNode → Prop
  | .leaf _ b1, .leaf _ b2 => b1 = b2
  | .internal _ l1 r1, .internal _ l2 r2 => SameShape l1 l2 ∧ SameShape r1 r2
  | _, _ => False

/-- The code c leads from node n to a leaf carrying byte b: bit 0 descends
left, bit 1 descends right, and only the final node of the path is a leaf. -/
inductive IsCodeFor : HuffmanNode → List Bool → Nat → Prop
  | leaf (f b : Nat) : IsCodeFor (.leaf f b) [] b
  | left {l : HuffmanNode} {c : List Bool} {b : Nat} (f : Nat) (r : HuffmanNode)
      (h : IsCodeFor l c b) : IsCodeFor (.internal f l r) (false :: c) b
  | right {r : HuffmanNode} {c : List Bool} {b : Nat} (f : Nat) (l : HuffmanNode)
      (h : IsCodeFor r c b) : IsCodeFor (.internal f l r) (true :: c) b

/-- A node is in a subtree (reflexive transitive closure of the child
relation). -/
inductive SubNode : HuffmanNode → HuffmanNode → Prop
  | refl (n : HuffmanNode) : SubNode n n
  | left {n f l r} : SubNode n l → SubNode n (.internal f l r)
  | right {n f l r} : SubNode n r → SubNode n (.internal f l r)

/-- Numeric key realizing the derived Ord on Option of u8: None first, then
Some in byte order. -/
def byteKey : Option Nat → Nat
  | none => 0
  | some v => v + 1

/-! ### Bit and byte buffer lemmas -/

theorem natToBits_length (w n : Nat) : (natToBits w n).length = w := by
  simp [natToBits]

theorem bitsVal_natToBits8 : ∀ b : Nat, b < 256 → bitsVal (natToBits 8 b) = b := by
  decide

theorem exists_eight (c : List Bool) (h : c.length = 8) :
    ∃ b0 b1 b2 b3 b4 b5 b6 b7, c = [b0, b1, b2, b3, b4, b5, b6, b7] := by
  rcases c with _ | ⟨b0, _ | ⟨b1, _ | ⟨b2, _ | ⟨b3, _ | ⟨b4, _ | ⟨b5, _ | ⟨b6, _ | ⟨b7, _ | ⟨b8, c⟩⟩⟩⟩⟩⟩⟩⟩⟩ <;>
    simp only [List.length_nil, List.length_cons] at h <;> try omega
  exact ⟨b0, b1, b2, b3, b4, b5, b6, b7, rfl⟩

theorem natToBits_bitsVal8 (c : List Bool) (h : c.length = 8) :
    natToBits 8 (bitsVal c) = c := by
  obtain ⟨b0, b1, b2, b3, b4, b5, b6, b7, rfl⟩ := exists_eight c h
  revert b0 b1 b2 b3 b4 b5 b6 b7
  decide

theorem bitsToBytes_cons8 (b0 b1 b2 b3 b4 b5 b6 b7 : Bool) (rest : List Bool) :
    bitsToBytes (b0 :: b1 :: b2 :: b3 :: b4 :: b5 :: b6 :: b7 :: rest) =
      bitsVal [b0, b1, b2, b3, b4, b5, b6, b7] :: bitsToBytes rest := rfl

theorem bitsToBytes_chunk (c rest : List Bool) (h : c.length = 8) :
    bitsToBytes (c ++ rest) = bitsVal c :: bitsToBytes rest := by
  obtain ⟨b0, b1, b2, b3, b4, b5, b6, b7, rfl⟩ := exists_eight c h
  rfl

theorem bytesToBits_nil : bytesToBits [] = [] := rfl

theorem bytesToBits_cons (b : Nat) (l : List Nat) :
    bytesToBits (b :: l) = natToBits 8 b ++ bytesToBits l := rfl

theorem bytesToBits_append (l1 l2 : List Nat) :
    bytesToBits (l1 ++ l2) = bytesToBits l1 ++ bytesToBits l2 := by
  simp [bytesToBits]

theorem bytesToBits_length (l : List Nat) : (bytesToBits l).length = 8 * l.length := by
  induction l with
  | nil => rfl
  | cons b l ih =>
      rw [bytesToBits_cons, List.length_append, natToBits_length, ih, List.length_cons]
      omega

theorem bitsToBytes_bytesToBits_append (l : List Nat) (rest : List Bool)
    (h : ∀ b ∈ l, b < 256) :
    bitsToBytes (bytesToBits l ++ rest) = l ++ bitsToBytes rest := by
  induction l with
  | nil => simp [bytesToBits]
  | cons b l ih =>
      have hb : b < 256 := h b (List.mem_cons_self b l)
      rw [bytesToBits_cons, List.append_assoc,
        bitsToBytes_chunk _ _ (natToBits_length 8 b), bitsVal_natToBits8 b hb,
        ih (fun x hx => h x (List.mem_cons_of_mem _ hx))]
      rfl

theorem bitsToBytes_short (bv : List Bool) (h0 : bv ≠ []) (h8 : bv.length < 8) :
    bitsToBytes bv = [bitsVal (bv ++ List.replicate (8 - bv.length) false)] := by
  rcases bv with _ | ⟨b0, _ | ⟨b1, _ | ⟨b2, _ | ⟨b3, _ | ⟨b4, _ | ⟨b5, _ | ⟨b6, _ | ⟨b7, c⟩⟩⟩⟩⟩⟩⟩⟩
  · exact absurd rfl h0
  · rfl
  · rfl
  · rfl
  · rfl
  · rfl
  · rfl
  · rfl
  · simp only [List.length_cons] at h8; omega

theorem bytesToBits_short (bv : List Bool) (h0 : bv ≠ []) (h8 : bv.length < 8) :
    bytesToBits (bitsToBytes bv) = bv ++ List.replicate (8 - bv.length) false := by
  have hlen : (bv ++ List.replicate (8 - bv.length) false).length = 8 := by
    simp [List.length_append, List.length_replicate]; omega
  rw [bitsToBytes_short bv h0 h8, bytesToBits_cons, bytesToBits_nil, List.append_nil,
    natToBits_bitsVal8 _ hlen]

theorem bytesToBits_bitsToBytes : ∀ bv : List Bool,
    bytesToBits (bitsToBytes bv) = bv ++ List.replicate ((8 - bv.length % 8) % 8) false
  | [] => by simp [bitsToBytes, bytesToBits]
  | b0 :: b1 :: b2 :: b3 :: b4 :: b5 :: b6 :: b7 :: rest => by
      rw [bitsToBytes_cons8, bytesToBits_cons, bytesToBits_bitsToBytes rest,
        natToBits_bitsVal8 [b0, b1, b2, b3, b4, b5, b6, b7] rfl]
      have hmod : (b0 :: b1 :: b2 :: b3 :: b4 :: b5 :: b6 :: b7 :: rest).length % 8 =
          rest.length % 8 := by
        simp only [List.length_cons]; omega
      rw [hmod]
      simp
  | [b0] => by
      rw [bytesToBits_short [b0] (by simp) (by simp)]; simp
  | [b0, b1] => by
      rw [bytesToBits_short [b0, b1] (by simp) (by simp)]; simp
  | [b0, b1, b2] => by
      rw [bytesToBits_short [b0, b1, b2] (by simp) (by simp)]; simp
  | [b0, b1, b2, b3] => by
      rw [bytesToBits_short [b0, b1, b2, b3] (by simp) (by simp)]; simp
  | [b0, b1, b2, b3, b4] => by
      rw [bytesToBits_short [b0, b1, b2, b3, b4] (by simp) (by simp)]; simp
  | [b0, b1, b2, b3, b4, b5] => by
      rw [bytesToBits_short [b0, b1, b2, b3, b4, b5] (by simp) (by simp)]; simp
  | [b0, b1, b2, b3, b4, b5, b6] => by
      rw [bytesToBits_short [b0, b1, b2, b3, b4, b5, b6] (by simp) (by simp)]; simp

/-! ### Big endian integer lemmas -/

theorem toBEBytes_length (w n : Nat) : (toBEBytes w n).length = w := by
  induction w generalizing n with
  | zero => rfl
  | succ w ih => simp [toBEBytes, ih]

theorem toBEBytes_lt (w n : Nat) : ∀ b ∈ toBEBytes w n, b < 256 := by
  induction w generalizing n with
  | zero => simp [toBEBytes]
  | succ w ih =>
      simp only [toBEBytes, List.mem_cons]
      rintro b (rfl | hb)
      · exact Nat.mod_lt _ (by norm_num)
      · exact ih n b hb

theorem readBE_foldl : ∀ (w n acc : Nat),
    (toBEBytes w n).foldl (fun a b => a * 256 + b) acc = acc * 2 ^ (8 * w) + n % 2 ^ (8 * w) := by
  intro w
  induction w with
  | zero => intro n acc; simp [toBEBytes, Nat.mod_one]
  | succ w ih =>
      intro n acc
      simp only [toBEBytes, List.foldl_cons]
      rw [ih]
      have hpow : 2 ^ (8 * (w + 1)) = 2 ^ (8 * w) * 256 := by
        rw [show 8 * (w + 1) = 8 * w + 8 from by ring, pow_add]; norm_num
      have key : n % (2 ^ (8 * w) * 256) = 2 ^ (8 * w) * (n / 2 ^ (8 * w) % 256) + n % 2 ^ (8 * w) := by
        have h2 : n % (2 ^ (8 * w) * 256) / 2 ^ (8 * w) = n / 2 ^ (8 * w) % 256 :=
          Nat.mod_mul_right_div_self n _ _
        have h3 : n % (2 ^ (8 * w) * 256) % 2 ^ (8 * w) = n % 2 ^ (8 * w) :=
          Nat.mod_mod_of_dvd n ⟨256, rfl⟩
        conv_lhs => rw [← Nat.div_add_mod (n % (2 ^ (8 * w) * 256)) (2 ^ (8 * w))]
        rw [h2, h3]
      rw [hpow, key]
      ring

theorem readBE_toBEBytes (w n : Nat) (h : n < 2 ^ (8 * w)) :
    readBE (toBEBytes w n) = n := by
  unfold readBE
  rw [readBE_foldl]
  simp [Nat.mod_eq_of_lt h]

/-! ### Ordering lemmas -/

theorem cmpNat_lt_iff (a b : Nat) : cmpNat a b = .lt ↔ a < b := by
  unfold cmpNat
  split_ifs with h1 h2
  · simpa using h1
  · simpa using by omega
  · simpa using by omega

theorem cmpNat_gt_iff (a b : Nat) : cmpNat a b = .gt ↔ b < a := by
  unfold cmpNat
  split_ifs with h1 h2
  · simpa using by omega
  · simpa using h2
  · simpa using by omega

theorem cmpNat_eq_iff (a b : Nat) : cmpNat a b = .eq ↔ a = b := by
  unfold cmpNat
  split_ifs with h1 h2
  · simpa using by omega
  · simpa using by omega
  · simpa using by omega

theorem cmpByteOpt_lt_iff (x y : Option Nat) :
    cmpByteOpt x y = .lt ↔ byteKey x < byteKey y := by
  cases x <;> cases y <;> simp [cmpByteOpt, byteKey, cmpNat_lt_iff]

theorem nodeCmp_lt_iff (x y : HuffmanNode) :
    nodeCmp x y = .lt ↔
      y.frequency < x.frequency ∨
        (y.frequency = x.frequency ∧ byteKey x.byte < byteKey y.byte) := by
  unfold nodeCmp
  rcases hc : cmpNat y.frequency x.frequency with _ | _ | _
  · rw [cmpNat_lt_iff] at hc
    constructor
    · intro _; exact Or.inl hc
    · intro _; rfl
  · rw [cmpNat_eq_iff] at hc
    rw [show (match Ordering.eq with | .eq => cmpByteOpt x.byte y.byte | o => o) =
        cmpByteOpt x.byte y.byte from rfl, cmpByteOpt_lt_iff]
    constructor
    · intro hh; exact Or.inr ⟨hc, hh⟩
    · rintro (hh | ⟨_, hh⟩)
      · omega
      · exact hh
  · rw [cmpNat_gt_iff] at hc
    constructor
    · intro hh; exact Ordering.noConfusion hh
    · rintro (hh | ⟨hh, _⟩) <;> exfalso <;> omega

theorem nodeGe_trans {a b c : HuffmanNode} (h1 : nodeCmp a b ≠ .lt) (h2 : nodeCmp b c ≠ .lt) :
    nodeCmp a c ≠ .lt := by
  simp only [ne_eq, nodeCmp_lt_iff] at h1 h2 ⊢
  omega

theorem nodeGe_of_lt {a b : HuffmanNode} (h : nodeCmp a b = .lt) : nodeCmp b a ≠ .lt := by
  rw [nodeCmp_lt_iff] at h
  simp only [ne_eq, nodeCmp_lt_iff]
  omega

/-! ### Heap lemmas -/

theorem heapPush_mem (a : HuffmanNode) : ∀ (h : List HuffmanNode) (n : HuffmanNode),
    n ∈ heapPush a h ↔ n = a ∨ n ∈ h := by
  intro h
  induction h with
  | nil => intro n; simp [heapPush]
  | cons b l ih =>
      intro n
      unfold heapPush
      split_ifs with hc <;> simp only [List.mem_cons, ih] <;> tauto

theorem heapPush_length (a : HuffmanNode) : ∀ h : List HuffmanNode,
    (heapPush a h).length = h.length + 1 := by
  intro h
  induction h with
  | nil => rfl
  | cons b l ih => unfold heapPush; split_ifs <;> simp [ih]

theorem heapPush_sorted (a : HuffmanNode) :
    ∀ h : List HuffmanNode, HeapSorted h → HeapSorted (heapPush a h) := by
  intro h
  induction h with
  | nil => intro _; simp [heapPush, HeapSorted]
  | cons b l ih =>
      intro hs
      rw [HeapSorted, List.pairwise_cons] at hs
      obtain ⟨hb, hl⟩ := hs
      unfold heapPush
      split_ifs with hc
      · rw [HeapSorted, List.pairwise_cons]
        refine ⟨?_, ih hl⟩
        intro n hn
        rcases (heapPush_mem a l n).mp hn with rfl | hn
        · exact nodeGe_of_lt hc
        · exact hb n hn
      · rw [HeapSorted, List.pairwise_cons]
        refine ⟨?_, List.Pairwise.cons hb hl⟩
        intro n hn
        rcases List.mem_cons.mp hn with rfl | hn
        · exact hc
        · exact nodeGe_trans hc (hb n hn)

theorem sorted_head_max {x : HuffmanNode} {l : List HuffmanNode}
    (hs : HeapSorted (x :: l)) : ∀ y ∈ l, nodeCmp x y ≠ .lt :=
  (List.pairwise_cons.mp hs).1

theorem heapPush_leafCount_sum (a : HuffmanNode) : ∀ h : List HuffmanNode,
    ((heapPush a h).map leafCount).sum = leafCount a + (h.map leafCount).sum := by
  intro h
  induction h with
  | nil => simp [heapPush]
  | cons b l ih =>
      unfold heapPush
      split_ifs <;> simp [ih] <;> omega

/-! ### Merge loop lemmas -/

theorem mergeLoopF_single : ∀ (fuel : Nat) (h : List HuffmanNode), h ≠ [] →
    h.length ≤ fuel + 1 → ∃ t, mergeLoopF fuel h = [t] := by
  intro fuel
  induction fuel with
  | zero =>
      intro h hne hlen
      rcases h with _ | ⟨x, _ | ⟨y, l⟩⟩
      · exact absurd rfl hne
      · exact ⟨x, rfl⟩
      · simp only [List.length_cons] at hlen; omega
  | succ fuel ih =>
      intro h hne hlen
      rcases h with _ | ⟨x, _ | ⟨y, l⟩⟩
      · exact absurd rfl hne
      · exact ⟨x, rfl⟩
      · rw [show mergeLoopF (fuel + 1) (x :: y :: l) =
            mergeLoopF fuel (heapPush (HuffmanNode.new_internal x y) l) from rfl]
        have hl := heapPush_length (HuffmanNode.new_internal x y) l
        apply ih
        · intro hcon; rw [hcon] at hl; simp at hl
        · simp only [List.length_cons] at hlen; omega

theorem mergeLoopF_internal : ∀ (fuel : Nat) (h : List HuffmanNode), 2 ≤ h.length →
    h.length ≤ fuel + 1 → ∃ f l r, mergeLoopF fuel h = [.internal f l r] := by
  intro fuel
  induction fuel with
  | zero => intro h h2 hlen; omega
  | succ fuel ih =>
      intro h h2 hlen
      rcases h with _ | ⟨x, _ | ⟨y, l⟩⟩
      · simp at h2
      · simp only [List.length_cons, List.length_nil] at h2; omega
      · rcases l with _ | ⟨z, l⟩
        · refine ⟨x.frequency + y.frequency, x, y, ?_⟩
          show mergeLoopF fuel [HuffmanNode.new_internal x y] =
            [HuffmanNode.internal (x.frequency + y.frequency) x y]
          cases fuel <;> rfl
        · rw [show mergeLoopF (fuel + 1) (x :: y :: z :: l) =
              mergeLoopF fuel (heapPush (HuffmanNode.new_internal x y) (z :: l)) from rfl]
          have hl := heapPush_length (HuffmanNode.new_internal x y) (z :: l)
          apply ih
          · rw [hl]; simp only [List.length_cons]; omega
          · rw [hl]; simp only [List.length_cons] at hlen ⊢; omega

theorem mergeLoopF_leafBytes : ∀ (fuel : Nat) (h : List HuffmanNode) (b : Nat),
    (∃ n ∈ mergeLoopF fuel h, b ∈ leafBytes n) ↔ (∃ n ∈ h, b ∈ leafBytes n) := by
  intro fuel
  induction fuel with
  | zero => intro h b; exact Iff.rfl
  | succ fuel ih =>
      intro h b
      rcases h with _ | ⟨x, _ | ⟨y, l⟩⟩
      · exact Iff.rfl
      · exact Iff.rfl
      · rw [show mergeLoopF (fuel + 1) (x :: y :: l) =
            mergeLoopF fuel (heapPush (HuffmanNode.new_internal x y) l) from rfl, ih]
        constructor
        · rintro ⟨n, hn, hbn⟩
          rcases (heapPush_mem _ _ _).mp hn with rfl | hn
          · rcases List.mem_append.mp
                (by simpa [leafBytes, HuffmanNode.new_internal] using hbn) with hx | hy
            · exact ⟨x, by simp, hx⟩
            · exact ⟨y, by simp, hy⟩
          · exact ⟨n, by simp [hn], hbn⟩
        · rintro ⟨n, hn, hbn⟩
          rcases List.mem_cons.mp hn with rfl | hn
          · exact ⟨HuffmanNode.new_internal n y, (heapPush_mem _ _ _).mpr (Or.inl rfl),
              by simp [leafBytes, HuffmanNode.new_internal, hbn]⟩
          rcases List.mem_cons.mp hn with rfl | hn
          · exact ⟨HuffmanNode.new_internal x n, (heapPush_mem _ _ _).mpr (Or.inl rfl),
              by simp [leafBytes, HuffmanNode.new_internal, hbn]⟩
          · exact ⟨n, (heapPush_mem _ _ _).mpr (Or.inr hn), hbn⟩

theorem mergeLoopF_leafCount_sum : ∀ (fuel : Nat) (h : List HuffmanNode),
    ((mergeLoopF fuel h).map leafCount).sum = (h.map leafCount).sum := by
  intro fuel
  induction fuel with
  | zero => intro h; rfl
  | succ fuel ih =>
      intro h
      rcases h with _ | ⟨x, _ | ⟨y, l⟩⟩
      · rfl
      · rfl
      · rw [show mergeLoopF (fuel + 1) (x :: y :: l) =
            mergeLoopF fuel (heapPush (HuffmanNode.new_internal x y) l) from rfl, ih,
          heapPush_leafCount_sum]
        simp [leafCount, HuffmanNode.new_internal]
        omega

/-! ### Build lemmas -/

theorem foldl_heapPush_mem : ∀ (l acc : List HuffmanNode) (n : HuffmanNode),
    n ∈ l.foldl (fun h a => heapPush a h) acc ↔ n ∈ acc ∨ n ∈ l := by
  intro l
  induction l with
  | nil => intro acc n; simp
  | cons x l ih =>
      intro acc n
      simp only [List.foldl_cons]
      rw [ih, heapPush_mem]
      simp only [List.mem_cons]
      tauto

theorem foldl_heapPush_sorted : ∀ (l acc : List HuffmanNode), HeapSorted acc →
    HeapSorted (l.foldl (fun h a => heapPush a h) acc) := by
  intro l
  induction l with
  | nil => intro acc h; exact h
  | cons x l ih =>
      intro acc h
      simp only [List.foldl_cons]
      exact ih _ (heapPush_sorted x acc h)

theorem foldl_heapPush_leafCount : ∀ (l acc : List HuffmanNode),
    ((l.foldl (fun h a => heapPush a h) acc).map leafCount).sum =
      (acc.map leafCount).sum + (l.map leafCount).sum := by
  intro l
  induction l with
  | nil => intro acc; simp
  | cons x l ih =>
      intro acc
      simp only [List.foldl_cons]
      rw [ih, heapPush_leafCount_sum]
      simp only [List.map_cons, List.sum_cons]
      omega

theorem initialLeaves_mem (data : List Nat) (n : HuffmanNode) :
    n ∈ initialLeaves data ↔
      ∃ b, b < 256 ∧ data.count b ≠ 0 ∧ n = HuffmanNode.new_leaf (data.count b) b := by
  unfold initialLeaves
  rw [List.mem_filterMap]
  constructor
  · rintro ⟨b, hb, hf⟩
    rw [List.mem_range] at hb
    by_cases hc : data.count b ≠ 0
    · rw [if_pos hc] at hf
      exact ⟨b, hb, hc, (Option.some_injective _ hf).symm⟩
    · rw [if_neg hc] at hf
      exact absurd hf (by simp)
  · rintro ⟨b, hb, hc, rfl⟩
    exact ⟨b, List.mem_range.mpr hb, by rw [if_pos hc]⟩

theorem initialHeap_mem (data : List Nat) (n : HuffmanNode) :
    n ∈ initialHeap data ↔ n ∈ initialLeaves data := by
  unfold initialHeap
  rw [foldl_heapPush_mem]
  simp

theorem initialHeap_sorted (data : List Nat) : HeapSorted (initialHeap data) :=
  foldl_heapPush_sorted _ _ (by simp [HeapSorted])

theorem initialHeap_leafBytes (data : List Nat) (b : Nat) :
    (∃ n ∈ initialHeap data, b ∈ leafBytes n) ↔ (b < 256 ∧ data.count b ≠ 0) := by
  constructor
  · rintro ⟨n, hn, hb⟩
    rw [initialHeap_mem, initialLeaves_mem] at hn
    obtain ⟨c, hc256, hcnt, rfl⟩ := hn
    simp only [HuffmanNode.new_leaf, leafBytes, List.mem_singleton] at hb
    subst hb
    exact ⟨hc256, hcnt⟩
  · rintro ⟨h256, hcnt⟩
    exact ⟨HuffmanNode.new_leaf (data.count b) b,
      (initialHeap_mem _ _).mpr ((initialLeaves_mem _ _).mpr ⟨b, h256, hcnt, rfl⟩),
      by simp [HuffmanNode.new_leaf, leafBytes]⟩

theorem buildHeap_spec (data : List Nat) :
    (initialHeap data = [] ∧
      buildHeap data = [HuffmanNode.new_internal (HuffmanNode.new_leaf 0 0)
        (HuffmanNode.new_leaf 0 0)]) ∨
    (∃ x, initialHeap data = [x] ∧
      buildHeap data = [HuffmanNode.new_internal x (HuffmanNode.new_leaf 0 0)]) ∨
    (2 ≤ (initialHeap data).length ∧ buildHeap data = initialHeap data) := by
  rcases hh : initialHeap data with _ | ⟨x, _ | ⟨y, l⟩⟩
  · left
    refine ⟨rfl, ?_⟩
    simp [buildHeap, hh, heapPush]
  · right; left
    exact ⟨x, rfl, by simp [buildHeap, hh, heapPush]⟩
  · right; right
    refine ⟨by simp, ?_⟩
    simp [buildHeap, hh]

theorem buildHeap_ne_nil (data : List Nat) : buildHeap data ≠ [] := by
  rcases buildHeap_spec data with ⟨_, h⟩ | ⟨x, _, h⟩ | ⟨h2, h⟩ <;> rw [h]
  · simp
  · simp
  · intro hc
    rw [hc] at h2
    simp at h2

theorem build_root_eq (data : List Nat) :
    mergeLoop (buildHeap data) = [(HuffmanTree.build data).root] := by
  obtain ⟨t, ht⟩ := mergeLoopF_single (buildHeap data).length (buildHeap data)
    (buildHeap_ne_nil data) (by omega)
  have hm : mergeLoop (buildHeap data) = [t] := ht
  rw [hm]
  unfold HuffmanTree.build
  rw [hm]
  rfl

theorem build_root_internal (data : List Nat) :
    ∃ f l r, (HuffmanTree.build data).root = HuffmanNode.internal f l r := by
  have hroot := build_root_eq data
  rcases buildHeap_spec data with ⟨_, h⟩ | ⟨x, _, h⟩ | ⟨h2, h⟩
  · rw [h] at hroot
    have h1 : mergeLoop [HuffmanNode.new_internal (HuffmanNode.new_leaf 0 0)
        (HuffmanNode.new_leaf 0 0)] = [HuffmanNode.new_internal (HuffmanNode.new_leaf 0 0)
        (HuffmanNode.new_leaf 0 0)] := rfl
    rw [h1] at hroot
    simp only [List.cons.injEq, and_true] at hroot
    exact ⟨_, _, _, hroot.symm⟩
  · rw [h] at hroot
    have h1 : mergeLoop [HuffmanNode.new_internal x (HuffmanNode.new_leaf 0 0)] =
        [HuffmanNode.new_internal x (HuffmanNode.new_leaf 0 0)] := rfl
    rw [h1] at hroot
    simp only [List.cons.injEq, and_true] at hroot
    exact ⟨_, _, _, hroot.symm⟩
  · rw [h] at hroot
    obtain ⟨f, l, r, hint⟩ :=
      mergeLoopF_internal (initialHeap data).length (initialHeap data) h2 (by omega)
    have h1 : mergeLoop (initialHeap data) =
        mergeLoopF (initialHeap data).length (initialHeap data) := rfl
    rw [h1, hint] at hroot
    simp only [List.cons.injEq, and_true] at hroot
    exact ⟨f, l, r, hroot.symm⟩

theorem build_leafBytes_iff (data : List Nat) (b : Nat) :
    b ∈ leafBytes (HuffmanTree.build data).root ↔ ∃ n ∈ buildHeap data, b ∈ leafBytes n := by
  have hroot := build_root_eq data
  have hml := mergeLoopF_leafBytes (buildHeap data).length (buildHeap data) b
  have h1 : mergeLoop (buildHeap data) =
      mergeLoopF (buildHeap data).length (buildHeap data) := rfl
  rw [← h1, hroot] at hml
  rw [← hml]
  simp

theorem build_mem_leafBytes_of_mem (data : List Nat) (b : Nat) (hb : b ∈ data) (h256 : b < 256) :
    b ∈ leafBytes (HuffmanTree.build data).root := by
  rw [build_leafBytes_iff]
  have hcnt : data.count b ≠ 0 := by
    intro hc
    exact absurd hb (List.count_eq_zero.mp hc)
  rcases buildHeap_spec data with ⟨hh, h⟩ | ⟨x, hh, h⟩ | ⟨h2, h⟩
  · exfalso
    obtain ⟨n, hn, _⟩ := (initialHeap_leafBytes data b).mpr ⟨h256, hcnt⟩
    rw [hh] at hn
    simp at hn
  · obtain ⟨n, hn, hbn⟩ := (initialHeap_leafBytes data b).mpr ⟨h256, hcnt⟩
    rw [hh] at hn
    simp only [List.mem_singleton] at hn
    subst hn
    rw [h]
    refine ⟨HuffmanNode.new_internal n (HuffmanNode.new_leaf 0 0), by simp, ?_⟩
    simp only [HuffmanNode.new_internal, leafBytes, List.mem_append]
    exact Or.inl hbn
  · rw [h]
    exact (initialHeap_leafBytes data b).mpr ⟨h256, hcnt⟩

theorem build_leafBytes_sub (data : List Nat) (b : Nat)
    (hb : b ∈ leafBytes (HuffmanTree.build data).root) : b ∈ data ∨ b = 0 := by
  have count_mem : data.count b ≠ 0 → b ∈ data := fun hcnt =>
    not_not.mp (fun hmem => hcnt (List.count_eq_zero.mpr hmem))
  rw [build_leafBytes_iff] at hb
  obtain ⟨n, hn, hbn⟩ := hb
  rcases buildHeap_spec data with ⟨hh, h⟩ | ⟨x, hh, h⟩ | ⟨h2, h⟩
  · rw [h] at hn
    simp only [List.mem_singleton] at hn
    subst hn
    simp only [HuffmanNode.new_internal, HuffmanNode.new_leaf, leafBytes,
      List.mem_append, List.mem_singleton] at hbn
    right; tauto
  · rw [h] at hn
    simp only [List.mem_singleton] at hn
    subst hn
    simp only [HuffmanNode.new_internal, HuffmanNode.new_leaf, leafBytes,
      List.mem_append, List.mem_singleton] at hbn
    rcases hbn with hbn | hbn
    · left
      have hex : ∃ n ∈ initialHeap data, b ∈ leafBytes n := ⟨x, by rw [hh]; simp, hbn⟩
      obtain ⟨-, hcnt⟩ := (initialHeap_leafBytes data b).mp hex
      exact count_mem hcnt
    · right; exact hbn
  · rw [h] at hn
    have hex : ∃ n ∈ initialHeap data, b ∈ leafBytes n := ⟨n, hn, hbn⟩
    obtain ⟨-, hcnt⟩ := (initialHeap_leafBytes data b).mp hex
    exact Or.inl (count_mem hcnt)

theorem build_leafBytes_lt (data : List Nat) (h1 : ∀ b ∈ data, b < 256) (b : Nat)
    (hb : b ∈ leafBytes (HuffmanTree.build data).root) : b < 256 := by
  rcases build_leafBytes_sub data b hb with hmem | rfl
  · exact h1 b hmem
  · omega

theorem initialHeap_two_of_distinct (data : List Nat) (x y : Nat) (hx : x ∈ data) (hy : y ∈ data)
    (hxy : x ≠ y) (hx2 : x < 256) (hy2 : y < 256) : 2 ≤ (initialHeap data).length := by
  have hcx : data.count x ≠ 0 := fun hc => absurd hx (List.count_eq_zero.mp hc)
  have hcy : data.count y ≠ 0 := fun hc => absurd hy (List.count_eq_zero.mp hc)
  have hmx : HuffmanNode.new_leaf (data.count x) x ∈ initialHeap data :=
    (initialHeap_mem _ _).mpr ((initialLeaves_mem _ _).mpr ⟨x, hx2, hcx, rfl⟩)
  have hmy : HuffmanNode.new_leaf (data.count y) y ∈ initialHeap data :=
    (initialHeap_mem _ _).mpr ((initialLeaves_mem _ _).mpr ⟨y, hy2, hcy, rfl⟩)
  have hne : HuffmanNode.new_leaf (data.count x) x ≠ HuffmanNode.new_leaf (data.count y) y := by
    intro hc
    apply hxy
    simpa [HuffmanNode.new_leaf, HuffmanNode.byte] using congrArg HuffmanNode.byte hc
  rcases hl : initialHeap data with _ | ⟨a, _ | ⟨c, l⟩⟩
  · rw [hl] at hmx; simp at hmx
  · rw [hl] at hmx hmy
    simp only [List.mem_singleton] at hmx hmy
    exact absurd (hmx.trans hmy.symm) hne
  · simp

theorem build_leafBytes_sub_of_two (data : List Nat) (h2 : 2 ≤ (initialHeap data).length)
    (b : Nat) (hb : b ∈ leafBytes (HuffmanTree.build data).root) : b ∈ data := by
  have count_mem : data.count b ≠ 0 → b ∈ data := fun hcnt =>
    not_not.mp (fun hmem => hcnt (List.count_eq_zero.mpr hmem))
  rw [build_leafBytes_iff] at hb
  obtain ⟨n, hn, hbn⟩ := hb
  rcases buildHeap_spec data with ⟨hh, h⟩ | ⟨x, hh, h⟩ | ⟨-, h⟩
  · rw [hh] at h2; simp at h2
  · rw [hh] at h2; simp at h2
  · rw [h] at hn
    obtain ⟨-, hcnt⟩ := (initialHeap_leafBytes data b).mp ⟨n, hn, hbn⟩
    exact count_mem hcnt

/-! ### Leaf count and serialized tree size -/

theorem leafCount_pos (n : HuffmanNode) : 1 ≤ leafCount n := by
  induction n with
  | leaf f b => simp [leafCount]
  | internal f l r ihl ihr => simp [leafCount]; omega

theorem sum_map_one {α : Type} (l : List α) (f : α → Nat) (h : ∀ x ∈ l, f x = 1) :
    (l.map f).sum = l.length := by
  induction l with
  | nil => rfl
  | cons a l ih =>
      simp only [List.map_cons, List.sum_cons, List.length_cons,
        h a (List.mem_cons_self a l), ih (fun x hx => h x (List.mem_cons_of_mem _ hx))]
      omega

theorem initialLeaves_length_le (data : List Nat) : (initialLeaves data).length ≤ 256 := by
  unfold initialLeaves
  calc (List.filterMap _ (List.range 256)).length ≤ (List.range 256).length :=
        List.length_filterMap_le _ _
    _ = 256 := List.length_range 256

theorem initialHeap_leafCount_sum (data : List Nat) :
    ((initialHeap data).map leafCount).sum ≤ 256 := by
  unfold initialHeap
  rw [foldl_heapPush_leafCount]
  simp only [List.map_nil, List.sum_nil, Nat.zero_add]
  rw [sum_map_one]
  · exact initialLeaves_length_le data
  · intro x hx
    obtain ⟨b, -, -, rfl⟩ := (initialLeaves_mem data x).mp hx
    rfl

theorem build_leafCount_le (data : List Nat) :
    leafCount (HuffmanTree.build data).root ≤ 257 := by
  have hroot := build_root_eq data
  have hsum := mergeLoopF_leafCount_sum (buildHeap data).length (buildHeap data)
  have h1 : mergeLoopF (buildHeap data).length (buildHeap data) =
      mergeLoop (buildHeap data) := rfl
  rw [h1, hroot] at hsum
  simp only [List.map_cons, List.map_nil, List.sum_cons, List.sum_nil, Nat.add_zero] at hsum
  have hheap : ((buildHeap data).map leafCount).sum ≤ 257 := by
    have hinit := initialHeap_leafCount_sum data
    rcases buildHeap_spec data with ⟨hh, h⟩ | ⟨x, hh, h⟩ | ⟨h2, h⟩
    · rw [h]
      simp [leafCount, HuffmanNode.new_internal, HuffmanNode.new_leaf]
    · rw [h]
      rw [hh] at hinit
      simp only [List.map_cons, List.map_nil, List.sum_cons, List.sum_nil,
        Nat.add_zero] at hinit
      simp only [List.map_cons, List.map_nil, List.sum_cons, List.sum_nil, Nat.add_zero,
        HuffmanNode.new_internal, leafCount, HuffmanNode.new_leaf]
      omega
    · rw [h]; omega
  omega

theorem serialize_length_leafCount (n : HuffmanNode) :
    (HuffmanTree.serialize_recursive n).length + 1 = 10 * leafCount n := by
  induction n with
  | leaf f b =>
      simp [HuffmanTree.serialize_recursive, natToBits_length, leafCount]
  | internal f l r ihl ihr =>
      simp only [HuffmanTree.serialize_recursive, leafCount, List.length_cons,
        List.length_append] at *
      omega

theorem height_lt_serialize_length (n : HuffmanNode) :
    height n < (HuffmanTree.serialize_recursive n).length := by
  induction n with
  | leaf f b => simp [height, HuffmanTree.serialize_recursive]
  | internal f l r ihl ihr =>
      simp only [height, HuffmanTree.serialize_recursive, List.length_cons,
        List.length_append] at *
      omega

/-! ### Bit value lemmas for leaf bytes -/

theorem bitsVal_cons (b : Bool) (bs : List Bool) :
    bitsVal (b :: bs) = (if b then 2 ^ bs.length else 0) + bitsVal bs := by
  have hfold : ∀ (l : List Bool) (acc : Nat),
      l.foldl (fun a c => 2 * a + (if c then 1 else 0)) acc = acc * 2 ^ l.length + bitsVal l := by
    intro l
    induction l with
    | nil => intro acc; simp [bitsVal]
    | cons c l ih =>
        intro acc
        simp only [List.foldl_cons, List.length_cons]
        rw [ih]
        have hc : bitsVal (c :: l) = (if c then 1 else 0) * 2 ^ l.length + bitsVal l := by
          show List.foldl _ (2 * 0 + if c then 1 else 0) l = _
          rw [ih]
          norm_num
        rw [hc, pow_succ]
        ring
  have h1 : bitsVal (b :: bs) = (if b then 1 else 0) * 2 ^ bs.length + bitsVal bs := by
    show List.foldl _ (2 * 0 + if b then 1 else 0) bs = _
    rw [hfold]
    norm_num
  rw [h1]
  split_ifs <;> simp

theorem readBitsMsb_exact : ∀ (bs : List Bool) (acc : Nat) (rest : List Bool),
    readBitsMsb bs.length acc (bs ++ rest) = .ok (acc + bitsVal bs, rest) := by
  intro bs
  induction bs with
  | nil =>
      intro acc rest
      simp [readBitsMsb, bitsVal]
  | cons b bs ih =>
      intro acc rest
      rw [show readBitsMsb (b :: bs).length acc ((b :: bs) ++ rest) =
          readBitsMsb bs.length (acc + if b then 2 ^ bs.length else 0) (bs ++ rest) from rfl]
      rw [ih, bitsVal_cons]
      congr 2
      generalize (if b then 2 ^ bs.length else 0) = d
      omega

theorem readBitsMsb8 (v : Nat) (rest : List Bool) (hv : v < 256) :
    readBitsMsb 8 0 (natToBits 8 v ++ rest) = .ok (v, rest) := by
  have h := readBitsMsb_exact (natToBits 8 v) 0 rest
  rw [natToBits_length] at h
  rw [h, bitsVal_natToBits8 v hv, Nat.zero_add]

/-! ### Tree serialization round trip -/

theorem reFreq_sameShape (n : HuffmanNode) : SameShape (reFreq n) n := by
  induction n with
  | leaf f b => simp [reFreq, SameShape, HuffmanNode.new_leaf]
  | internal f l r ihl ihr =>
      simp [reFreq, SameShape, HuffmanNode.new_internal]
      exact ⟨ihl, ihr⟩

theorem deserialize_serialize : ∀ (n : HuffmanNode) (fuel : Nat) (rest : List Bool),
    (∀ b ∈ leafBytes n, b < 256) → height n < fuel →
    HuffmanTree.deserialize_recursive fuel (HuffmanTree.serialize_recursive n ++ rest) =
      .ok (reFreq n, rest) := by
  intro n
  induction n with
  | leaf f v =>
      intro fuel rest hbytes hh
      rcases fuel with _ | fuel
      · simp [height] at hh
      · simp only [HuffmanTree.serialize_recursive, List.cons_append]
        rw [show HuffmanTree.deserialize_recursive (fuel + 1) (true :: (natToBits 8 v ++ rest)) =
            (readBitsMsb 8 0 (natToBits 8 v ++ rest)).map
              (fun p => (HuffmanNode.new_leaf 0 p.1, p.2)) from rfl]
        have hv : v < 256 := hbytes v (by simp [leafBytes])
        rw [readBitsMsb8 v rest hv]
        simp [RustResult.map, reFreq]
  | internal f l r ihl ihr =>
      intro fuel rest hbytes hh
      rcases fuel with _ | fuel
      · simp [height] at hh
      · have hhl : height l < fuel := by
          simp only [height] at hh
          have := Nat.le_max_left (height l) (height r)
          omega
        have hhr : height r < fuel := by
          simp only [height] at hh
          have := Nat.le_max_right (height l) (height r)
          omega
        simp only [HuffmanTree.serialize_recursive, List.cons_append, List.append_assoc]
        rw [show HuffmanTree.deserialize_recursive (fuel + 1)
            (false :: (HuffmanTree.serialize_recursive l ++
              (HuffmanTree.serialize_recursive r ++ rest))) =
            (HuffmanTree.deserialize_recursive fuel (HuffmanTree.serialize_recursive l ++
              (HuffmanTree.serialize_recursive r ++ rest))).bind (fun p =>
              (HuffmanTree.deserialize_recursive fuel p.2).bind (fun q =>
                .ok (HuffmanNode.new_internal p.1 q.1, q.2))) from rfl]
        rw [ihl fuel _ (fun b hb => hbytes b (by simp [leafBytes, hb])) hhl]
        simp only [RustResult.bind]
        rw [ihr fuel rest (fun b hb => hbytes b (by simp [leafBytes, hb])) hhr]
        simp only [RustResult.bind]
        rfl

/-! ### Code table lemmas -/

theorem IsCodeFor_leaf_inv {f v : Nat} {c : List Bool} {b : Nat}
    (h : IsCodeFor (.leaf f v) c b) : c = [] ∧ b = v := by
  cases h
  exact ⟨rfl, rfl⟩

theorem IsCodeFor_internal_nil {f : Nat} {l r : HuffmanNode} {b : Nat}
    (h : IsCodeFor (.internal f l r) [] b) : False := by
  cases h

theorem IsCodeFor_reFreq {n : HuffmanNode} {c : List Bool} {b : Nat}
    (h : IsCodeFor n c b) : IsCodeFor (reFreq n) c b := by
  induction h with
  | leaf f b => exact IsCodeFor.leaf 0 b
  | left f r hsub ih => exact IsCodeFor.left _ _ ih
  | right f l hsub ih => exact IsCodeFor.right _ _ ih

theorem build_table_spec : ∀ (n : HuffmanNode) (table : Nat → List Bool) (cur : List Bool)
    (b : Nat),
    (b ∉ leafBytes n → HuffmanTree.build_table_recursive n table cur b = table b) ∧
    (b ∈ leafBytes n → ∃ c, IsCodeFor n c b ∧
      HuffmanTree.build_table_recursive n table cur b = cur ++ c) := by
  intro n
  induction n with
  | leaf f v =>
      intro table cur b
      constructor
      · intro hb
        simp only [leafBytes, List.mem_singleton] at hb
        simp [HuffmanTree.build_table_recursive, hb]
      · intro hb
        simp only [leafBytes, List.mem_singleton] at hb
        subst hb
        exact ⟨[], IsCodeFor.leaf f b, by simp [HuffmanTree.build_table_recursive]⟩
  | internal f l r ihl ihr =>
      intro table cur b
      constructor
      · intro hb
        simp only [leafBytes, List.mem_append] at hb
        push_neg at hb
        obtain ⟨hbl, hbr⟩ := hb
        simp only [HuffmanTree.build_table_recursive]
        rw [(ihr _ _ b).1 hbr, (ihl _ _ b).1 hbl]
      · intro hb
        by_cases hbr : b ∈ leafBytes r
        · obtain ⟨c, hc, heq⟩ := (ihr (HuffmanTree.build_table_recursive l table (cur ++ [false]))
            (cur ++ [true]) b).2 hbr
          refine ⟨true :: c, IsCodeFor.right f l hc, ?_⟩
          simp only [HuffmanTree.build_table_recursive]
          rw [heq]
          simp
        · have hbl : b ∈ leafBytes l := by
            simp only [leafBytes, List.mem_append] at hb
            tauto
          obtain ⟨c, hc, heq⟩ := (ihl table (cur ++ [false]) b).2 hbl
          refine ⟨false :: c, IsCodeFor.left f r hc, ?_⟩
          simp only [HuffmanTree.build_table_recursive]
          rw [(ihr _ _ b).1 hbr, heq]
          simp

theorem get_encoding_table_code (t : HuffmanTree) (b : Nat) (hb : b ∈ leafBytes t.root) :
    IsCodeFor t.root (t.get_encoding_table b) b := by
  obtain ⟨c, hc, heq⟩ := (build_table_spec t.root (fun _ => []) [] b).2 hb
  unfold HuffmanTree.get_encoding_table
  rw [heq]
  simpa using hc

theorem get_encoding_table_absent (t : HuffmanTree) (b : Nat) (hb : b ∉ leafBytes t.root) :
    t.get_encoding_table b = [] := by
  have h := (build_table_spec t.root (fun _ => []) [] b).1 hb
  unfold HuffmanTree.get_encoding_table
  rw [h]

theorem IsCodeFor_nonempty {f : Nat} {l r : HuffmanNode} {c : List Bool} {b : Nat}
    (h : IsCodeFor (.internal f l r) c b) : c ≠ [] := by
  intro hc
  subst hc
  exact IsCodeFor_internal_nil h

theorem codes_no_initseg : ∀ {n : HuffmanNode} {p1 : List Bool} {b1 : Nat},
    IsCodeFor n p1 b1 → ∀ {p2 : List Bool} {b2 : Nat}, IsCodeFor n p2 b2 → b1 ≠ b2 →
      ¬ InitSeg p1 p2 := by
  intro n p1 b1 h1
  induction h1 with
  | leaf f b =>
      intro p2 b2 h2 hne _
      obtain ⟨-, hb2⟩ := IsCodeFor_leaf_inv h2
      exact hne hb2.symm
  | left f r hsub ih =>
      intro p2 b2 h2 hne hseg
      obtain ⟨t, ht⟩ := hseg
      rw [List.cons_append] at ht
      subst ht
      cases h2 with
      | left f' l' hsub2 => exact ih hsub2 hne ⟨t, rfl⟩
  | right f l hsub ih =>
      intro p2 b2 h2 hne hseg
      obtain ⟨t, ht⟩ := hseg
      rw [List.cons_append] at ht
      subst ht
      cases h2 with
      | right f' l' hsub2 => exact ih hsub2 hne ⟨t, rfl⟩

/-! ### Decode loop lemmas -/

theorem RustResult.map_eq_ok {α β : Type} {f : α → β} {x : RustResult α} {b : β}
    (h : x.map f = .ok b) : ∃ a, x = .ok a ∧ b = f a := by
  cases x with
  | ok a => exact ⟨a, rfl, by simpa [RustResult.map] using h.symm⟩
  | panicked m => simp [RustResult.map] at h

theorem RustResult.bind_eq_ok {α β : Type} {x : RustResult α} {f : α → RustResult β}
    {b : β} (h : x.bind f = .ok b) : ∃ a, x = .ok a ∧ f a = .ok b := by
  cases x with
  | ok a => exact ⟨a, rfl, h⟩
  | panicked m => simp [RustResult.bind] at h

theorem decodeLoop_zero (root cur : HuffmanNode) (bits : List Bool) :
    HuffmanArchive.decodeLoop root cur bits 0 = .ok [] := by
  cases bits <;> rfl

theorem decodeLoop_step_false (root : HuffmanNode) (f : Nat) (l r : HuffmanNode)
    (bits : List Bool) (k : Nat) :
    HuffmanArchive.decodeLoop root (.internal f l r) (false :: bits) (k + 1) =
      match l.byte with
      | some b => (HuffmanArchive.decodeLoop root root bits k).map (fun out => b :: out)
      | none => HuffmanArchive.decodeLoop root l bits (k + 1) := rfl

theorem decodeLoop_step_true (root : HuffmanNode) (f : Nat) (l r : HuffmanNode)
    (bits : List Bool) (k : Nat) :
    HuffmanArchive.decodeLoop root (.internal f l r) (true :: bits) (k + 1) =
      match r.byte with
      | some b => (HuffmanArchive.decodeLoop root root bits k).map (fun out => b :: out)
      | none => HuffmanArchive.decodeLoop root r bits (k + 1) := rfl

theorem decode_code (root : HuffmanNode) :
    ∀ {cur : HuffmanNode} {code : List Bool} {b : Nat}, IsCodeFor cur code b →
      ∀ {f : Nat} {l r : HuffmanNode}, cur = .internal f l r → ∀ (rest : List Bool) (k : Nat),
        HuffmanArchive.decodeLoop root cur (code ++ rest) (k + 1) =
          (HuffmanArchive.decodeLoop root root rest k).map (fun out => b :: out) := by
  intro cur code b h1
  induction h1 with
  | leaf f b =>
      intro f' l' r' heq rest k
      exact absurd heq (by simp)
  | left f r hsub ih =>
      rename_i l c b
      intro f' l' r' heq rest k
      rw [List.cons_append, decodeLoop_step_false]
      rcases l with ⟨fl, vl⟩ | ⟨fl, ll, rl⟩
      · obtain ⟨rfl, rfl⟩ := IsCodeFor_leaf_inv hsub
        simp [HuffmanNode.byte]
      · exact ih rfl rest k
  | right f l hsub ih =>
      rename_i r c b
      intro f' l' r' heq rest k
      rw [List.cons_append, decodeLoop_step_true]
      rcases r with ⟨fr, vr⟩ | ⟨fr, lr, rr⟩
      · obtain ⟨rfl, rfl⟩ := IsCodeFor_leaf_inv hsub
        simp [HuffmanNode.byte]
      · exact ih rfl rest k

theorem decode_payload (root : HuffmanNode) (f0 : Nat) (l0 r0 : HuffmanNode)
    (hroot : root = .internal f0 l0 r0) (table : Nat → List Bool) :
    ∀ (ds : List Nat), (∀ b ∈ ds, IsCodeFor root (table b) b) → ∀ (rest : List Bool),
      HuffmanArchive.decodeLoop root root ((ds.map table).flatten ++ rest) ds.length =
        .ok ds := by
  intro ds
  induction ds with
  | nil => intro _ rest; exact decodeLoop_zero root root rest
  | cons b ds ih =>
      intro hcodes rest
      simp only [List.map_cons, List.flatten_cons, List.length_cons, List.append_assoc]
      rw [decode_code root (hcodes b (List.mem_cons_self b ds)) hroot]
      rw [ih (fun x hx => hcodes x (List.mem_cons_of_mem _ hx)) rest]
      rfl

theorem decodeLoop_ok_length (root : HuffmanNode) :
    ∀ (bits : List Bool) (cur : HuffmanNode) (k : Nat) (out : List Nat),
      HuffmanArchive.decodeLoop root cur bits k = .ok out → out.length = k := by
  intro bits
  induction bits with
  | nil =>
      intro cur k out h
      rcases k with _ | k
      · rw [decodeLoop_zero] at h
        injection h with h
        rw [← h]
        rfl
      · exact absurd h (by
          rw [show HuffmanArchive.decodeLoop root cur [] (k + 1) =
            .panicked ("Ran out of bits before reaching data_len") from rfl]
          simp)
  | cons bit bits ih =>
      intro cur k out h
      rcases k with _ | k
      · rw [decodeLoop_zero] at h
        injection h with h
        rw [← h]
        rfl
      · rcases cur with ⟨fc, vc⟩ | ⟨fc, lc, rc⟩
        · exfalso
          rcases bit with _ | _
          · rw [show HuffmanArchive.decodeLoop root (.leaf fc vc) (false :: bits) (k + 1) =
                .panicked ("unwrap on None") from rfl] at h
            exact RustResult.noConfusion h
          · rw [show HuffmanArchive.decodeLoop root (.leaf fc vc) (true :: bits) (k + 1) =
                .panicked ("unwrap on None") from rfl] at h
            exact RustResult.noConfusion h
        · rcases bit with _ | _
          · rw [decodeLoop_step_false] at h
            rcases lc with ⟨fl, vl⟩ | ⟨fl, ll, rl⟩
            · simp only [HuffmanNode.byte] at h
              obtain ⟨a, ha, rfl⟩ := RustResult.map_eq_ok h
              simp only [List.length_cons]
              rw [ih root k a ha]
            · simp only [HuffmanNode.byte] at h
              exact ih _ _ _ h
          · rw [decodeLoop_step_true] at h
            rcases rc with ⟨fr, vr⟩ | ⟨fr, lr, rr⟩
            · simp only [HuffmanNode.byte] at h
              obtain ⟨a, ha, rfl⟩ := RustResult.map_eq_ok h
              simp only [List.length_cons]
              rw [ih root k a ha]
            · simp only [HuffmanNode.byte] at h
              exact ih _ _ _ h

/-! ### Archive assembly -/

theorem foldl_append_table (table : Nat → List Bool) :
    ∀ (ds : List Nat) (acc : List Bool),
      ds.foldl (fun a b => a ++ table b) acc = acc ++ (ds.map table).flatten := by
  intro ds
  induction ds with
  | nil => intro acc; simp
  | cons b ds ih =>
      intro acc
      simp only [List.foldl_cons, List.map_cons, List.flatten_cons, ih, List.append_assoc]

theorem compress_eq (data : List Nat) (tree : HuffmanTree) :
    HuffmanArchive.compress data tree =
      bytesToBits ([74, 80] ++ (toBEBytes 8 tree.serialize.length ++
        toBEBytes 8 data.length)) ++
        (tree.serialize ++ (data.map tree.get_encoding_table).flatten) := by
  unfold HuffmanArchive.compress
  rw [foldl_append_table, bytesToBits_append, bytesToBits_append]
  simp [List.append_assoc]

theorem compressedBytes_eq (data : List Nat) :
    compressedBytes data =
      ([74, 80] ++ (toBEBytes 8 (HuffmanTree.build data).serialize.length ++
        toBEBytes 8 data.length)) ++
        bitsToBytes ((HuffmanTree.build data).serialize ++
          (data.map (HuffmanTree.build data).get_encoding_table).flatten) := by
  unfold compressedBytes
  rw [compress_eq, bitsToBytes_bytesToBits_append]
  intro b hb
  simp only [List.mem_append, List.mem_cons, List.not_mem_nil, or_false] at hb
  rcases hb with (rfl | rfl) | (hb | hb)
  · omega
  · omega
  · exact toBEBytes_lt 8 _ b hb
  · exact toBEBytes_lt 8 _ b hb

theorem compressedBytes_length (data : List Nat) :
    (compressedBytes data).length = 18 +
      (bitsToBytes ((HuffmanTree.build data).serialize ++
        (data.map (HuffmanTree.build data).get_encoding_table).flatten)).length := by
  rw [compressedBytes_eq]
  simp [List.length_append, toBEBytes_length]
  omega

theorem compressedBytes_take2 (data : List Nat) :
    (compressedBytes data).take 2 = [74, 80] := by
  rw [compressedBytes_eq]
  rfl

theorem compressedBytes_data_len (data : List Nat) (h2 : data.length < 2 ^ 64) :
    readBE (((compressedBytes data).drop 10).take 8) = data.length := by
  rw [compressedBytes_eq]
  have hsplit : ([74, 80] ++ (toBEBytes 8 (HuffmanTree.build data).serialize.length ++
      toBEBytes 8 data.length)) ++
      bitsToBytes ((HuffmanTree.build data).serialize ++
        (data.map (HuffmanTree.build data).get_encoding_table).flatten) =
      ([74, 80] ++ toBEBytes 8 (HuffmanTree.build data).serialize.length) ++
      (toBEBytes 8 data.length ++
        bitsToBytes ((HuffmanTree.build data).serialize ++
          (data.map (HuffmanTree.build data).get_encoding_table).flatten)) := by
    simp [List.append_assoc]
  rw [hsplit,
    List.drop_left' (by simp [toBEBytes_length] : ([74, 80] ++
      toBEBytes 8 (HuffmanTree.build data).serialize.length).length = 10),
    List.take_left' (toBEBytes_length 8 data.length)]
  exact readBE_toBEBytes 8 data.length (by norm_num at h2 ⊢; exact h2)

theorem compressedBytes_bits_drop (data : List Nat) :
    (bytesToBits (compressedBytes data)).drop 144 =
      (HuffmanTree.build data).serialize ++
        ((data.map (HuffmanTree.build data).get_encoding_table).flatten ++
          List.replicate ((8 - ((HuffmanTree.build data).serialize ++
            (data.map (HuffmanTree.build data).get_encoding_table).flatten).length % 8) % 8)
            false) := by
  rw [compressedBytes_eq, bytesToBits_append, bytesToBits_bitsToBytes,
    List.drop_left' (by
      rw [bytesToBits_length]
      simp [List.length_append, toBEBytes_length] :
        (bytesToBits ([74, 80] ++ (toBEBytes 8 (HuffmanTree.build data).serialize.length ++
          toBEBytes 8 data.length))).length = 144),
    List.append_assoc]

theorem serialize_def (t : HuffmanTree) :
    t.serialize = HuffmanTree.serialize_recursive t.root := rfl

theorem decompress_compress (data : List Nat) (h1 : ∀ b ∈ data, b < 256)
    (h2 : data.length < 2 ^ 64) :
    HuffmanArchive.decompress (compressedBytes data) = .ok (some data) := by
  obtain ⟨f0, l0, r0, hroot⟩ := build_root_internal data
  have hge : 18 ≤ (compressedBytes data).length := by
    rw [compressedBytes_length]; omega
  unfold HuffmanArchive.decompress
  rw [if_neg (by omega), if_neg (by rw [compressedBytes_take2]; simp), if_neg (by omega),
    if_neg (by omega)]
  have hbytesOK : ∀ b ∈ leafBytes (HuffmanTree.build data).root, b < 256 :=
    build_leafBytes_lt data h1
  have hdeser : HuffmanTree.deserialize_shape ((bytesToBits (compressedBytes data)).drop 144) =
      .ok (⟨reFreq (HuffmanTree.build data).root⟩,
        (data.map (HuffmanTree.build data).get_encoding_table).flatten ++
          List.replicate ((8 - ((HuffmanTree.build data).serialize ++
            (data.map (HuffmanTree.build data).get_encoding_table).flatten).length % 8) % 8)
            false) := by
    rw [compressedBytes_bits_drop]
    unfold HuffmanTree.deserialize_shape
    rw [serialize_def]
    rw [deserialize_serialize (HuffmanTree.build data).root _ _ hbytesOK (by
      have hh := height_lt_serialize_length (HuffmanTree.build data).root
      simp only [List.length_append]
      omega)]
    rfl
  rw [hdeser]
  simp only [RustResult.bind]
  rw [compressedBytes_data_len data h2]
  have hroot' : reFreq (HuffmanTree.build data).root =
      HuffmanNode.internal ((reFreq l0).frequency + (reFreq r0).frequency) (reFreq l0)
        (reFreq r0) := by
    rw [hroot]; rfl
  have hcodes : ∀ b ∈ data, IsCodeFor (reFreq (HuffmanTree.build data).root)
      ((HuffmanTree.build data).get_encoding_table b) b := fun b hb =>
    IsCodeFor_reFreq (get_encoding_table_code _ b
      (build_mem_leafBytes_of_mem data b hb (h1 b hb)))
  rw [decode_payload (reFreq (HuffmanTree.build data).root) _ _ _ hroot'
    (HuffmanTree.build data).get_encoding_table data hcodes]
  rfl

/-! ### Heap order of the build and determinism -/

theorem buildHeap_sorted (data : List Nat) : HeapSorted (buildHeap data) := by
  rcases buildHeap_spec data with ⟨-, h⟩ | ⟨x, -, h⟩ | ⟨-, h⟩ <;> rw [h]
  · simp [HeapSorted]
  · simp [HeapSorted]
  · exact initialHeap_sorted data

theorem build_count_congr (d1 d2 : List Nat) (h : ∀ b, d1.count b = d2.count b) :
    HuffmanTree.build d1 = HuffmanTree.build d2 := by
  have hleaves : initialLeaves d1 = initialLeaves d2 := by
    unfold initialLeaves
    apply List.filterMap_congr
    intro b _
    rw [h b]
  unfold HuffmanTree.build mergeLoop buildHeap initialHeap
  rw [hleaves]

theorem serialize_length_lt (data : List Nat) :
    (HuffmanTree.serialize (HuffmanTree.build data)).length < 2 ^ 64 := by
  have hc := build_leafCount_le data
  have hs := serialize_length_leafCount (HuffmanTree.build data).root
  rw [serialize_def]
  have hpow : (2 : Nat) ^ 64 = 18446744073709551616 := by norm_num
  omega

theorem compressedBytes_tree_len (data : List Nat) :
    ((compressedBytes data).drop 2).take 8 =
      toBEBytes 8 (HuffmanTree.serialize (HuffmanTree.build data)).length ∧
    readBE (((compressedBytes data).drop 2).take 8) =
      (HuffmanTree.serialize (HuffmanTree.build data)).length := by
  have hsplit : compressedBytes data =
      [74, 80] ++ (toBEBytes 8 (HuffmanTree.build data).serialize.length ++
        (toBEBytes 8 data.length ++
          bitsToBytes ((HuffmanTree.build data).serialize ++
            (data.map (HuffmanTree.build data).get_encoding_table).flatten))) := by
    rw [compressedBytes_eq]
    simp [List.append_assoc]
  have htake : ((compressedBytes data).drop 2).take 8 =
      toBEBytes 8 (HuffmanTree.build data).serialize.length := by
    rw [hsplit,
      List.drop_left' (show ([74, 80] : List Nat).length = 2 from rfl),
      List.take_left' (toBEBytes_length 8 _)]
  refine ⟨htake, ?_⟩
  rw [htake]
  exact readBE_toBEBytes 8 _ (by
    have := serialize_length_lt data
    rw [serialize_def] at this
    norm_num
    rw [serialize_def]
    norm_num at this
    exact this)

theorem compressedBytes_data_len_bytes (data : List Nat) :
    ((compressedBytes data).drop 10).take 8 = toBEBytes 8 data.length := by
  rw [compressedBytes_eq]
  have hsplit : ([74, 80] ++ (toBEBytes 8 (HuffmanTree.build data).serialize.length ++
      toBEBytes 8 data.length)) ++
      bitsToBytes ((HuffmanTree.build data).serialize ++
        (data.map (HuffmanTree.build data).get_encoding_table).flatten) =
      ([74, 80] ++ toBEBytes 8 (HuffmanTree.build data).serialize.length) ++
      (toBEBytes 8 data.length ++
        bitsToBytes ((HuffmanTree.build data).serialize ++
          (data.map (HuffmanTree.build data).get_encoding_table).flatten)) := by
    simp [List.append_assoc]
  rw [hsplit,
    List.drop_left' (by simp [toBEBytes_length] : ([74, 80] ++
      toBEBytes 8 (HuffmanTree.build data).serialize.length).length = 10),
    List.take_left' (toBEBytes_length 8 data.length)]

/-! ### Claims -/

/-- C1: round trip. For every byte buffer D of u8 values (bytes below 256)
with a Rust representable length (below 2 to the 64), decompressing the
archive produced by compressing D, with the compressed bit buffer padded
with zero bits to a whole number of bytes, yields exactly D. -/
theorem C1_round_trip (data : List Nat) (h1 : ∀ b ∈ data, b < 256)
    (h2 : data.length < 2 ^ 64) :
    HuffmanArchive.decompress (compressedBytes data) = .ok (some data) :=
  decompress_compress data h1 h2

/-- C1 witness at the single byte buffer [65]. -/
theorem C1_round_trip_witness :
    (∀ b ∈ ([65] : List Nat), b < 256) ∧ ([65] : List Nat).length < 2 ^ 64 ∧
      HuffmanArchive.decompress (compressedBytes [65]) = .ok (some [65]) :=
  ⟨by decide, by decide, C1_round_trip [65] (by decide) (by decide)⟩

/-- C2: the spec requires an ordinary FormatError result for every archive of
fewer than 18 bytes, but the code checks only for fewer than 2 bytes and then
slices bytes 2..10 unconditionally, so the 2 byte archive holding exactly the
magic value panics with a slice range error instead of returning an error
value. -/
theorem C2_short_archive_panics :
    HuffmanArchive.decompress [74, 80] = .panicked ("slice index out of range") ∧
      HuffmanArchive.decompress [74, 80] ≠ .ok none := by
  decide

/-- C3 counterexample: for the empty input the builder does not produce a
single dummy leaf root: the root carries no byte value (it is internal,
because the single node fixup also fires after the empty input fixup), and
the serialized tree is not 9 bits long. -/
theorem C3_counterexample :
    (HuffmanTree.build []).root.byte = none ∧
      (HuffmanTree.serialize (HuffmanTree.build [])).length ≠ 9 := by
  decide

/-- C3 amended: for the empty input buffer the tree builder produces an
internal root whose two children are dummy leaves (byte value 0, frequency
0), so the serialized tree is 19 bits (one internal marker bit plus two
9 bit leaves) and the archive still has no payload bits: the compressed bit
buffer is exactly the 144 header bits followed by the 19 tree bits. -/
theorem C3_amended_empty_tree :
    (HuffmanTree.build []).root =
      HuffmanNode.internal 0 (HuffmanNode.leaf 0 0) (HuffmanNode.leaf 0 0) ∧
    HuffmanTree.serialize (HuffmanTree.build []) =
      false :: (true :: natToBits 8 0 ++ (true :: natToBits 8 0)) ∧
    HuffmanArchive.compress [] (HuffmanTree.build []) =
      bytesToBits ([74, 80] ++ (toBEBytes 8 19 ++ toBEBytes 8 0)) ++
        HuffmanTree.serialize (HuffmanTree.build []) ∧
    (HuffmanArchive.compress [] (HuffmanTree.build [])).length = 163 := by
  decide

/-- C4 counterexample: bytes 0 and 1 both occur exactly once in [0, 1]; the
claim says equal frequencies merge in ascending byte value order (so the
first popped node, byte 0, would become the left child), but the build makes
the leaf with byte value 1 the left child. -/
theorem C4_counterexample :
    (HuffmanTree.build [0, 1]).root =
      HuffmanNode.internal 2 (HuffmanNode.leaf 1 1) (HuffmanNode.leaf 1 0) ∧
      (HuffmanTree.build [0, 1]).root.l_child ≠ some (HuffmanNode.leaf 1 0) := by
  decide

/-- C4 amended: nodes are popped in ascending frequency order with ties
broken by DESCENDING byte value (internal nodes, with no byte, come after
every leaf of equal frequency): the heap of the build is sorted, pushes
preserve sortedness, the head of a sorted heap (the next pop) has strictly
smaller frequency than every other node or equal frequency and a byte key at
least as large; each merge makes the first popped node the left child and the
second popped node the right child, and the resulting tree is a pure function
of the frequency table. -/
theorem C4_amended_pop_order :
    (∀ data : List Nat, HeapSorted (buildHeap data)) ∧
    (∀ (a : HuffmanNode) (h : List HuffmanNode), HeapSorted h → HeapSorted (heapPush a h)) ∧
    (∀ (x : HuffmanNode) (l : List HuffmanNode), HeapSorted (x :: l) → ∀ y ∈ l,
      x.frequency < y.frequency ∨
        (x.frequency = y.frequency ∧ byteKey y.byte ≤ byteKey x.byte)) ∧
    (∀ (fuel : Nat) (x y : HuffmanNode) (rest : List HuffmanNode),
      mergeLoopF (fuel + 1) (x :: y :: rest) =
        mergeLoopF fuel (heapPush (HuffmanNode.new_internal x y) rest)) ∧
    (∀ x y : HuffmanNode, (HuffmanNode.new_internal x y).l_child = some x ∧
      (HuffmanNode.new_internal x y).r_child = some y) ∧
    (∀ d1 d2 : List Nat, (∀ b, d1.count b = d2.count b) →
      HuffmanTree.build d1 = HuffmanTree.build d2) := by
  refine ⟨buildHeap_sorted, heapPush_sorted, ?_, fun _ _ _ _ => rfl,
    fun x y => ⟨rfl, rfl⟩, build_count_congr⟩
  intro x l hs y hy
  have hmax := sorted_head_max hs y hy
  simp only [ne_eq, nodeCmp_lt_iff] at hmax
  omega

/-- C4 witness: a concrete sorted two element heap with equal frequencies,
where the head (next pop) is the leaf with the larger byte value. -/
theorem C4_amended_pop_order_witness :
    (HuffmanNode.leaf 1 1).frequency < (HuffmanNode.leaf 1 0).frequency ∨
      ((HuffmanNode.leaf 1 1).frequency = (HuffmanNode.leaf 1 0).frequency ∧
        byteKey (HuffmanNode.leaf 1 0).byte ≤ byteKey (HuffmanNode.leaf 1 1).byte) :=
  C4_amended_pop_order.2.2.1 (HuffmanNode.leaf 1 1) [HuffmanNode.leaf 1 0]
    (by decide) (HuffmanNode.leaf 1 0) (by decide)

/-- C5: deserializing the serialization of every tree the builder produces
from u8 data succeeds, consumes exactly the serialized bits, and yields a
tree with the same shape and the same byte value at every leaf (the rebuilt
tree is the original with the frequencies deserialization assigns). -/
theorem C5_serialize_round_trip (data : List Nat) (h1 : ∀ b ∈ data, b < 256) :
    HuffmanTree.deserialize_shape (HuffmanTree.serialize (HuffmanTree.build data)) =
      .ok (⟨reFreq (HuffmanTree.build data).root⟩, []) ∧
    SameShape (reFreq (HuffmanTree.build data).root) (HuffmanTree.build data).root := by
  constructor
  · unfold HuffmanTree.deserialize_shape
    rw [serialize_def]
    have hd := deserialize_serialize (HuffmanTree.build data).root
      ((HuffmanTree.serialize_recursive (HuffmanTree.build data).root).length + 1) []
      (build_leafBytes_lt data h1) (by
        have := height_lt_serialize_length (HuffmanTree.build data).root
        omega)
    rw [List.append_nil] at hd
    rw [hd]
    rfl
  · exact reFreq_sameShape _

/-- C5 witness at the single byte buffer [65]. -/
theorem C5_serialize_round_trip_witness :
    (∀ b ∈ ([65] : List Nat), b < 256) ∧
      HuffmanTree.deserialize_shape (HuffmanTree.serialize (HuffmanTree.build [65])) =
        .ok (⟨reFreq (HuffmanTree.build [65]).root⟩, []) ∧
      SameShape (reFreq (HuffmanTree.build [65]).root) (HuffmanTree.build [65]).root :=
  ⟨by decide, (C5_serialize_round_trip [65] (by decide)).1,
    (C5_serialize_round_trip [65] (by decide)).2⟩

/-- C6: for every u8 input buffer of Rust representable length, the archive
bytes start with the two ASCII bytes of "JP" (74, 80), followed by an 8 byte
big endian integer equal to the bit length developed of the serialized tree,
followed by an 8 byte big endian integer equal to the byte length of the
original input. -/
theorem C6_header (data : List Nat) (h1 : ∀ b ∈ data, b < 256)
    (h2 : data.length < 2 ^ 64) :
    (compressedBytes data).take 2 = [74, 80] ∧
    ((compressedBytes data).drop 2).take 8 =
      toBEBytes 8 (HuffmanTree.serialize (HuffmanTree.build data)).length ∧
    readBE (((compressedBytes data).drop 2).take 8) =
      (HuffmanTree.serialize (HuffmanTree.build data)).length ∧
    ((compressedBytes data).drop 10).take 8 = toBEBytes 8 data.length ∧
    readBE (((compressedBytes data).drop 10).take 8) = data.length :=
  ⟨compressedBytes_take2 data, (compressedBytes_tree_len data).1,
    (compressedBytes_tree_len data).2, compressedBytes_data_len_bytes data,
    compressedBytes_data_len data h2⟩

/-- C6 witness at the single byte buffer [65]. -/
theorem C6_header_witness :
    (∀ b ∈ ([65] : List Nat), b < 256) ∧ ([65] : List Nat).length < 2 ^ 64 ∧
      (compressedBytes [65]).take 2 = [74, 80] ∧
      readBE (((compressedBytes [65]).drop 10).take 8) = ([65] : List Nat).length :=
  ⟨by decide, by decide, (C6_header [65] (by decide) (by decide)).1,
    (C6_header [65] (by decide) (by decide)).2.2.2.2⟩

/-- C7 counterexample: byte value 0 does not occur in the input [65], yet its
code table entry is the 1 bit code of the dummy leaf, not the empty
sequence. -/
theorem C7_counterexample :
    (0 : Nat) ∉ ([65] : List Nat) ∧
      HuffmanTree.get_encoding_table (HuffmanTree.build [65]) 0 ≠ [] := by
  decide

/-- C7 amended: the code table maps every byte value that does not occur in
the input to the empty bit sequence, except possibly byte value 0: the dummy
leaf (byte 0) that exists when the input has at most one distinct byte value
receives a code even when 0 is absent from the input. Every absent nonzero
byte maps to the empty sequence, and when the input holds two distinct byte
values every absent byte, 0 included, maps to the empty sequence. -/
theorem C7_amended_absent_bytes (data : List Nat) (h1 : ∀ b ∈ data, b < 256) (b : Nat)
    (hb : b ∉ data) :
    (b ≠ 0 → HuffmanTree.get_encoding_table (HuffmanTree.build data) b = []) ∧
    ((∃ x ∈ data, ∃ y ∈ data, x ≠ y) →
      HuffmanTree.get_encoding_table (HuffmanTree.build data) b = []) := by
  constructor
  · intro hb0
    apply get_encoding_table_absent
    intro hmem
    rcases build_leafBytes_sub data b hmem with h | h
    · exact hb h
    · exact hb0 h
  · rintro ⟨x, hx, y, hy, hxy⟩
    apply get_encoding_table_absent
    intro hmem
    exact hb (build_leafBytes_sub_of_two data
      (initialHeap_two_of_distinct data x y hx hy hxy (h1 x hx) (h1 y hy)) b hmem)

/-- C7 witness: byte 7 is absent from [65] and nonzero, so its entry is
empty. -/
theorem C7_amended_absent_bytes_witness :
    (∀ b ∈ ([65] : List Nat), b < 256) ∧ (7 : Nat) ∉ ([65] : List Nat) ∧
      HuffmanTree.get_encoding_table (HuffmanTree.build [65]) 7 = [] :=
  ⟨by decide, by decide,
    (C7_amended_absent_bytes [65] (by decide) 7 (by decide)).1 (by decide)⟩

/-- C8 counterexample: an 18 byte archive with valid magic, a declared tree
bit length and data length 1 but no bits after the header makes decompress
panic (the expect call of the tree deserializer) instead of returning an
ordinary TruncatedArchiveError value such as the error result the claim
describes. -/
theorem C8_counterexample :
    HuffmanArchive.decompress ([74, 80] ++ (toBEBytes 8 19 ++ toBEBytes 8 1)) =
      .panicked ("Something wrong with bitstream") ∧
    HuffmanArchive.decompress ([74, 80] ++ (toBEBytes 8 19 ++ toBEBytes 8 1)) ≠
      .ok none := by
  decide

/-- C8 amended: when the bit stream is exhausted before data length bytes are
produced, decompress panics (terminating abnormally with no buffer) rather
than returning an error value; no partial output is ever returned: whenever
decompress returns a buffer, that buffer has exactly the data length declared
in the header. -/
theorem C8_amended_complete_output (archive : List Nat) (out : List Nat)
    (h : HuffmanArchive.decompress archive = .ok (some out)) :
    out.length = readBE ((archive.drop 10).take 8) := by
  unfold HuffmanArchive.decompress at h
  split_ifs at h
  all_goals try (injection h with h; exact Option.noConfusion h)
  all_goals try exact RustResult.noConfusion h
  obtain ⟨p, hp, hrest⟩ := RustResult.bind_eq_ok h
  obtain ⟨a, ha, hsome⟩ := RustResult.map_eq_ok hrest
  have hout : out = a := by injection hsome
  subst hout
  exact decodeLoop_ok_length _ _ _ _ _ ha

/-- C8 witness: the archive of the empty buffer decodes to the empty buffer,
whose length equals the declared data length 0. -/
theorem C8_amended_complete_output_witness :
    HuffmanArchive.decompress (compressedBytes []) = .ok (some []) ∧
      ([] : List Nat).length = readBE (((compressedBytes []).drop 10).take 8) :=
  ⟨by decide, C8_amended_complete_output (compressedBytes []) [] (by decide)⟩

/-- C9: for every u8 input buffer and all distinct byte values b1 and b2 that
both occur in it, the code of b1 is never an initial segment of the code of
b2 in the derived table. -/
theorem C9_codes_not_initseg (data : List Nat) (h1 : ∀ b ∈ data, b < 256) (b1 b2 : Nat)
    (hb1 : b1 ∈ data) (hb2 : b2 ∈ data) (hne : b1 ≠ b2) :
    ¬ InitSeg (HuffmanTree.get_encoding_table (HuffmanTree.build data) b1)
      (HuffmanTree.get_encoding_table (HuffmanTree.build data) b2) := by
  have hc1 := get_encoding_table_code (HuffmanTree.build data) b1
    (build_mem_leafBytes_of_mem data b1 hb1 (h1 b1 hb1))
  have hc2 := get_encoding_table_code (HuffmanTree.build data) b2
    (build_mem_leafBytes_of_mem data b2 hb2 (h1 b2 hb2))
  exact codes_no_initseg hc1 hc2 hne

/-- C9 witness at the buffer [0, 1]. -/
theorem C9_codes_not_initseg_witness :
    (∀ b ∈ ([0, 1] : List Nat), b < 256) ∧ (0 : Nat) ∈ ([0, 1] : List Nat) ∧
      (1 : Nat) ∈ ([0, 1] : List Nat) ∧ (0 : Nat) ≠ 1 ∧
      ¬ InitSeg (HuffmanTree.get_encoding_table (HuffmanTree.build [0, 1]) 0)
        (HuffmanTree.get_encoding_table (HuffmanTree.build [0, 1]) 1) :=
  ⟨by decide, by decide, by decide, by decide,
    C9_codes_not_initseg [0, 1] (by decide) 0 1 (by decide) (by decide) (by decide)⟩

/-- C10: for every u8 input buffer of Rust representable length, the empty
buffer included, the built tree has an internal root; every node of any tree
is a leaf with a byte value and no children or an internal node with both
children present; every byte value occurring in the input gets a nonempty
code; and decoding the archive produced by compress never panics, in
particular it never reaches a missing child of a leaf during the payload
walk. -/
theorem C10_tree_invariants (data : List Nat) (h1 : ∀ b ∈ data, b < 256)
    (h2 : data.length < 2 ^ 64) :
    (∃ f l r, (HuffmanTree.build data).root = HuffmanNode.internal f l r) ∧
    (∀ n : HuffmanNode, SubNode n (HuffmanTree.build data).root →
      (n.byte.isSome ∧ n.l_child = none ∧ n.r_child = none) ∨
      (n.byte = none ∧ n.l_child.isSome ∧ n.r_child.isSome)) ∧
    (∀ b ∈ data, HuffmanTree.get_encoding_table (HuffmanTree.build data) b ≠ []) ∧
    (∀ m, HuffmanArchive.decompress (compressedBytes data) ≠ .panicked m) := by
  refine ⟨build_root_internal data, ?_, ?_, ?_⟩
  · intro n _
    rcases n with ⟨f, v⟩ | ⟨f, l, r⟩
    · left; exact ⟨rfl, rfl, rfl⟩
    · right; exact ⟨rfl, rfl, rfl⟩
  · intro b hb hempty
    obtain ⟨f0, l0, r0, hroot⟩ := build_root_internal data
    have hcode := get_encoding_table_code (HuffmanTree.build data) b
      (build_mem_leafBytes_of_mem data b hb (h1 b hb))
    rw [hempty, hroot] at hcode
    exact IsCodeFor_internal_nil hcode
  · intro m hm
    rw [decompress_compress data h1 h2] at hm
    exact RustResult.noConfusion hm

/-- C10 witness at the single byte buffer [65]. -/
theorem C10_tree_invariants_witness :
    (∀ b ∈ ([65] : List Nat), b < 256) ∧ ([65] : List Nat).length < 2 ^ 64 ∧
      HuffmanTree.get_encoding_table (HuffmanTree.build [65]) 65 ≠ [] ∧
      HuffmanArchive.decompress (compressedBytes [65]) ≠
        .panicked ("Ran out of bits before reaching data_len") :=
  ⟨by decide, by decide,
    (C10_tree_invariants [65] (by decide) (by decide)).2.2.1 65 (by decide),
    (C10_tree_invariants [65] (by decide) (by decide)).2.2.2 _⟩
